import Mathlib

/-!
Verification development for the Bank_Assistance_AI repository.

The Python sources (ingest.py, rag_engine.py, main.py) are shallowly embedded
over lists of characters.  Text is modelled as `List Char` (Python strings are
sequences of code points, exactly as `List Char` is).  Python regular
expression passes of `clean_text` are modelled as executable character-list
scanners; each scanner is written with an explicit fuel argument (fuel equal
to the length of the input is always sufficient, every step consumes at least
one character) so that every definition reduces inside the kernel.

File-system state for the Conversation Store is modelled as a map from
session id to the state of that session file: `absent` (no file),
`malformed` (a file whose contents the JSON parser rejects, or which is not a
JSON array), or `valid entries`.  The external retriever, language model,
embedding model and vector index are out of scope of the repository (they are
third-party services); they enter the model as function parameters.
-/

set_option linter.unusedVariables false

namespace BankAssist

/-- Strings are modelled as lists of characters. -/
abbrev Str := List Char

/-- Embed a Lean string literal into the character-list representation. -/
def str (s : String) : Str := s.data

/-- Python whitespace (regex class backslash-s and str.split / str.strip),
restricted to the ASCII whitespace characters. -/
def pyIsSpace (c : Char) : Bool :=
  c == ' ' || c == '\t' || c == '\n' || c == '\r' ||
    c == Char.ofNat 11 || c == Char.ofNat 12

/-- Python word character (regex class backslash-w), ASCII model:
letters, digits and underscore. -/
def pyIsWordChar (c : Char) : Bool :=
  c.isAlphanum || c == '_'

/-- Characters kept by the cleaning allow-list of `clean_text`
(ingest.py line 23): word characters, whitespace and `.,-%():/`. -/
def allowedChar (c : Char) : Bool :=
  pyIsWordChar c || pyIsSpace c ||
    c == '.' || c == ',' || c == '-' || c == '%' ||
    c == '(' || c == ')' || c == ':' || c == '/'

/-- Fuel-indexed scanner for `re.sub(r'\s+', ' ', text)` (ingest.py line 20):
every maximal run of whitespace becomes one space. -/
def collapseWsF : Nat → Str → Str
  | 0, l => l
  | _ + 1, [] => []
  | f + 1, c :: rest =>
    if pyIsSpace c then ' ' :: collapseWsF f (rest.dropWhile pyIsSpace)
    else c :: collapseWsF f rest

/-- Collapse every whitespace run to a single space. -/
def collapseWs (l : Str) : Str := collapseWsF l.length l

/-- Fuel-indexed scanner for Python `str.split()`: the whitespace-separated
words of a string, in order, without empty words. -/
def pyWordsF : Nat → Str → List Str
  | 0, _ => []
  | _ + 1, [] => []
  | f + 1, c :: rest =>
    if pyIsSpace c then pyWordsF f rest
    else (c :: rest.takeWhile fun x => !pyIsSpace x) ::
      pyWordsF f (rest.dropWhile fun x => !pyIsSpace x)

/-- The whitespace-separated words of a string. -/
def pyWords (l : Str) : List Str := pyWordsF l.length l

/-- Python `sep.join(parts)`. -/
def joinSep (sep : Str) : List Str → Str
  | [] => []
  | [x] => x
  | x :: y :: rest => x ++ sep ++ joinSep sep (y :: rest)

/-- Length (7 or 8) of the URL scheme prefix `https?://` matched at the head
of the input, if any.  The regex tries the longer alternative (with `s`)
first; the two prefixes are mutually exclusive anyway. -/
def schemeLen (l : Str) : Option Nat :=
  if (str "https://").isPrefixOf l then some 8
  else if (str "http://").isPrefixOf l then some 7
  else none

/-- Fuel-indexed scanner for
`re.sub(r'https?://[^\s]+', lambda m: m.group(0).split('/')[2] ...)`
(ingest.py line 26).  A match needs the scheme prefix followed by at least
one non-whitespace character; the greedy body extends to the next whitespace.
The replacement `m.group(0).split('/')[2]` is the part of the match body
after `://` up to the next `/` (the match always contains `/`, so the
lambda's else-branch is dead).  On a failed match the regex engine advances
the scan position by one character, which is what the non-matching branches
do. -/
def urlSubF : Nat → Str → Str
  | 0, l => l
  | _ + 1, [] => []
  | f + 1, c :: rest =>
    match schemeLen (c :: rest) with
    | some n =>
      let after := (c :: rest).drop n
      match after with
      | [] => c :: urlSubF f rest
      | a :: _ =>
        if pyIsSpace a then c :: urlSubF f rest
        else
          ((after.takeWhile fun x => !pyIsSpace x).takeWhile fun x => x != '/') ++
            urlSubF f (after.dropWhile fun x => !pyIsSpace x)
    | none => c :: urlSubF f rest

/-- Truncate URLs to their domain names. -/
def urlSub (l : Str) : Str := urlSubF l.length l

/-- Fuel-indexed scanner for `re.sub(r'(\d+)\s*%', r'\1%', text)`
(ingest.py line 29): drop whitespace between a digit run and a percent sign.
When the percent sign is missing the whole digit run can be emitted at once:
a match attempt at any later position inside the run fails for the same
reason, so the scan equivalently resumes after the run. -/
def percentSubF : Nat → Str → Str
  | 0, l => l
  | _ + 1, [] => []
  | f + 1, c :: rest =>
    if c.isDigit then
      let ds := (c :: rest).takeWhile Char.isDigit
      let r1 := (c :: rest).dropWhile Char.isDigit
      let r2 := r1.dropWhile pyIsSpace
      if r2.head? = some '%' then ds ++ '%' :: percentSubF f r2.tail
      else ds ++ percentSubF f r1
    else c :: percentSubF f rest

/-- Normalize `N %` to `N%`. -/
def percentSub (l : Str) : Str := percentSubF l.length l

/-- Python `text.split('.')`: the (possibly empty) pieces of the string
between period characters; splitting the empty string yields one empty
piece. -/
def splitOnDot : Str → List Str
  | [] => [[]]
  | c :: rest =>
    if c = '.' then [] :: splitOnDot rest
    else
      match splitOnDot rest with
      | [] => [[c]]
      | s :: ss => (c :: s) :: ss

/-- Remove trailing whitespace (the right half of Python `str.strip()`). -/
def pyStripRight : Str → Str
  | [] => []
  | c :: rest =>
    let r := pyStripRight rest
    if r.isEmpty && pyIsSpace c then [] else c :: r

/-- Python `str.strip()`: remove leading and trailing whitespace. -/
def pyStrip (l : Str) : Str := pyStripRight (l.dropWhile pyIsSpace)

/-- Python `str.lower()`, ASCII model. -/
def lowerStr (l : Str) : Str := l.map Char.toLower

/-- The sentence-deduplication loop of `clean_text` (ingest.py lines 32-39):
keep the first occurrence of every sentence, compared after stripping and
lower-casing, dropping sentences that strip to nothing; the stripped sentence
is what is kept.  The Python `seen` set is modelled as the list of
normalized sentences seen so far (only membership is used). -/
def dedupAux : List Str → List Str → List Str
  | [], _ => []
  | line :: rest, seen =>
    let normalized := lowerStr (pyStrip line)
    if normalized ≠ [] ∧ normalized ∉ seen then
      pyStrip line :: dedupAux rest (normalized :: seen)
    else dedupAux rest seen

/-- Deduplicate sentences, starting from an empty seen-set. -/
def dedupLines (lines : List Str) : List Str := dedupAux lines []

/-- ingest.py `clean_text` (lines 14-41): collapse whitespace, filter through
the character allow-list, truncate URLs to domains, normalize percentages,
then deduplicate sentences and re-join them with `. `.  An empty (falsy)
input returns the empty string at once. -/
def clean_text (text : Str) : Str :=
  if text = [] then []
  else
    let t1 := collapseWs text
    let t2 := t1.filter allowedChar
    let t3 := urlSub t2
    let t4 := percentSub t3
    joinSep (str ". ") (dedupLines (splitOnDot t4))

/-- A corpus document (ingest.py lines 178-184): page content plus the
`query` and `source` metadata fields. -/
structure Document where
  page_content : Str
  metadata_query : Str
  metadata_source : Str
deriving DecidableEq

/-- The externally visible steps `create_vector_db` performs after its
input check, in order: chunking, embedding, persisting the index. -/
inductive IngestStep where
  | chunked (numChunks : Nat)
  | embedded
  | persisted
deriving DecidableEq

/-- ingest.py `create_vector_db` (lines 198-228): fails with the input-error
message when the document list is empty, before any other step; otherwise
splits the documents into chunks and builds and persists the index.  The
text splitter, the embedding model and the FAISS index are third-party
components, so the splitter enters as a function parameter and the
embedding/persistence steps are recorded as abstract trace events. -/
def create_vector_db (split : List Document → List Document)
    (documents : List Document) : Except Str (List IngestStep) :=
  if documents = [] then
    .error (str "No documents available for vector database creation")
  else
    let chunks := split documents
    .ok [.chunked chunks.length, .embedded, .persisted]

/-- One recorded question/answer turn (rag_engine.py lines 117-122). -/
structure Exchange where
  timestamp : Str
  question : Str
  answer : Str
  context_sources : Nat
deriving DecidableEq

/-- State of one session's conversation file on disk. -/
inductive FileState where
  | absent
  | malformed
  | valid (entries : List Exchange)
deriving DecidableEq

/-- The conversation directory: one file state per session id. -/
def ConvStore := Str → FileState

/-- Point update of the conversation directory. -/
def updateStore (store : ConvStore) (sid : Str) (v : FileState) : ConvStore :=
  fun s => if s = sid then v else store s

/-- rag_engine.py `save_conversation` (lines 104-128): read the session file
(an absent file stands for the empty history), append one Exchange carrying
the wall-clock timestamp, the question, the full answer and the number of
context snippets, and write the file back.  Every exception is caught and
only logged: if the existing file does not parse as a JSON array the read
raises and the store is left unchanged. -/
def save_conversation (store : ConvStore) (session_id question answer : Str)
    (context : List Str) (now : Str) : ConvStore :=
  match store session_id with
  | .malformed => store
  | .absent =>
      updateStore store session_id (.valid [⟨now, question, answer, context.length⟩])
  | .valid entries =>
      updateStore store session_id
        (.valid (entries ++ [⟨now, question, answer, context.length⟩]))

/-- rag_engine.py `load_conversation` (lines 130-141): return the parsed
session file, an absent file giving the empty history; every exception
(unreadable or malformed file) is caught and the empty history returned. -/
def load_conversation (store : ConvStore) (session_id : Str) : List Exchange :=
  match store session_id with
  | .absent => []
  | .malformed => []
  | .valid entries => entries

/-- rag_engine.py `clear_conversation` (lines 240-251): delete the session
file if it exists, returning whether it existed. -/
def clear_conversation (store : ConvStore) (session_id : Str) :
    Bool × ConvStore :=
  match store session_id with
  | .absent => (false, store)
  | _ => (true, updateStore store session_id .absent)

/-- rag_engine.py `format_conversation_history` (lines 92-102): the fixed
marker for an empty history; otherwise two lines per Exchange of the last
three Exchanges, the stored answer cut to its first 200 characters and
always followed by the ellipsis marker. -/
def format_conversation_history (history : List Exchange) : Str :=
  if history = [] then str "No previous conversation"
  else
    joinSep (str "\n")
      ((history.drop (history.length - 3)).flatMap fun entry =>
        [str "User: " ++ entry.question,
         str "Assistant: " ++ entry.answer.take 200 ++ str "..."])

/-- rag_engine.py `validate_question` (lines 143-155): reject an empty or
all-whitespace question, normalize whitespace via `" ".join(q.split())`,
reject a normalized question shorter than 3 characters, and return the
normalized question. -/
def validate_question (question : Str) : Except Str Str :=
  if question = [] then .error (str "Question cannot be empty")
  else if pyStrip question = [] then .error (str "Question cannot be empty")
  else
    let q := joinSep [' '] (pyWords question)
    if q.length < 3 then .error (str "Question is too short")
    else .ok q

/-- A chunk returned by the retriever: page content plus the optional
`source` metadata entry read by `process_query` (rag_engine.py line 220). -/
structure RetrievedDoc where
  page_content : Str
  metadata_source : Option Str
deriving DecidableEq

/-- Failures `process_query` can propagate: a `ValueError` from validation,
or a generic failure of the language-model call. -/
inductive PQError where
  | validation (msg : Str)
  | llmFailure
deriving DecidableEq

/-- The success payload of `process_query` (rag_engine.py lines 227-231). -/
structure PQResult where
  answer : Str
  context_used : List Str
  sources : List Str
deriving DecidableEq

/-- Render a natural number in decimal. -/
def natStr (n : Nat) : Str := (Nat.repr n).data

/-- The context block of the prompt (rag_engine.py lines 185-188): the
retrieved chunks, each prefixed with its one-based rank, joined by the fixed
divider. -/
def context_text_of (docs : List RetrievedDoc) : Str :=
  joinSep (str "\n\n---\n\n")
    (docs.enum.map fun p =>
      str "Source " ++ natStr (p.1 + 1) ++ str ":\n" ++ p.2.page_content)

/-- The fixed fallback answer for the zero-documents short-circuit
(rag_engine.py line 179). -/
def fallbackAnswer : Str :=
  str "I couldn\x27t find relevant information in the bank\x27s documentation. Please contact Bank of Maharashtra directly for assistance."

/-- The default source label (rag_engine.py line 220). -/
def defaultSourceLabel : Str := str "Bank of Maharashtra"

/-- The display snippet of a retrieved chunk (rag_engine.py lines 213-216):
content over 300 characters is cut to 300 and marked with an ellipsis. -/
def snippetOf (d : RetrievedDoc) : Str :=
  if d.page_content.length > 300 then d.page_content.take 300 ++ str "..."
  else d.page_content

/-- rag_engine.py `process_query` (lines 157-238), for an initialized
system: validate the question, load and format the session history, retrieve
documents for the validated question, short-circuit with the fallback answer
when none are retrieved, otherwise call the language model once, build
snippets and the deduplicated source list, append the Exchange and return.
The retriever and the language model are external services passed as
functions; the model call may fail (Python: raise), which propagates without
an Exchange being saved.  The returned triple is (outcome, resulting store,
number of language-model invocations).  Python's `list(set(sources))` has
unspecified element order; it is modelled as `List.dedup`, and every claim
proved about `sources` is order-insensitive. -/
def process_query (retriever : Str → List RetrievedDoc)
    (llm : Str → Str → Str → Except Unit Str) (now : Str)
    (question session_id : Str) (store : ConvStore) :
    Except PQError PQResult × ConvStore × Nat :=
  match validate_question question with
  | .error msg => (.error (.validation msg), store, 0)
  | .ok q =>
    let history := load_conversation store session_id
    let history_text := format_conversation_history history
    let docs := retriever q
    if docs.isEmpty then
      (.ok ⟨fallbackAnswer, [], []⟩, store, 0)
    else
      match llm (context_text_of docs) history_text q with
      | .error _ => (.error .llmFailure, store, 1)
      | .ok answer =>
        let context_snippets := docs.map snippetOf
        let sources := docs.map fun d => d.metadata_source.getD defaultSourceLabel
        let store2 := save_conversation store session_id q answer context_snippets now
        (.ok ⟨answer, context_snippets, sources.dedup⟩, store2, 1)

/-- main.py response model `StatusResponse` (lines 33-35). -/
structure StatusResponse where
  status : Str
  message : Str
deriving DecidableEq

/-- main.py response model `QueryResponse` (lines 27-31). -/
structure QueryResponse where
  answer : Str
  context_used : List Str
  sources : List Str
  session_id : Str
deriving DecidableEq

/-- main.py `/query` endpoint (lines 90-121): a `ValueError` becomes a 400
client fault carrying the validation message, any other failure becomes the
fixed generic 500 fault; success wraps the result together with the session
id. -/
def query_loan_assistant (retriever : Str → List RetrievedDoc)
    (llm : Str → Str → Str → Except Unit Str) (now : Str)
    (question session_id : Str) (store : ConvStore) :
    Except (Nat × Str) QueryResponse × ConvStore :=
  match process_query retriever llm now question session_id store with
  | (.ok r, store2, _) =>
      (.ok ⟨r.answer, r.context_used, r.sources, session_id⟩, store2)
  | (.error (.validation msg), store2, _) => (.error (400, msg), store2)
  | (.error .llmFailure, store2, _) =>
      (.error (500, str "Failed to process query. Please try again."), store2)

/-- main.py `/clear-history` endpoint (lines 123-148): "success" with the
session id in the message when a record existed, "info" otherwise. -/
def clear_conversation_history (store : ConvStore) (session_id : Str) :
    StatusResponse × ConvStore :=
  let r := clear_conversation store session_id
  if r.1 then
    (⟨str "success",
      str "Conversation history cleared for session: " ++ session_id⟩, r.2)
  else
    (⟨str "info", str "No conversation history found for this session"⟩, r.2)

/-- One `save_conversation` call's inputs, for stating sequences of
appends. -/
structure AppendInput where
  now : Str
  question : Str
  answer : Str
  context : List Str
deriving DecidableEq

/-- Perform a sequence of `save_conversation` calls for one session. -/
def appendAll (store : ConvStore) (sid : Str) : List AppendInput → ConvStore
  | [] => store
  | i :: rest =>
    appendAll (save_conversation store sid i.question i.answer i.context i.now)
      sid rest

/-- The Exchange a single append stores. -/
def exchangeOf (i : AppendInput) : Exchange :=
  ⟨i.now, i.question, i.answer, i.context.length⟩

/-- The store with no session files at all. -/
def emptyStore : ConvStore := fun _ => .absent

/-- A store holding one record, for the C3 witness. -/
def oneRecordStore : ConvStore :=
  updateStore emptyStore (str "s") (.valid [⟨str "t", str "q", str "a", 0⟩])

/-- A store whose only session file is malformed, for the C10 witness. -/
def corruptStore : ConvStore := updateStore emptyStore (str "s") .malformed

/-- Two retrieved chunks carrying the same source label, for the C5
witness. -/
def docWebA : RetrievedDoc := ⟨str "contentA", some (str "web")⟩

/-- Second chunk with the same source label, for the C5 witness. -/
def docWebB : RetrievedDoc := ⟨str "contentB", some (str "web")⟩

/-- Whitespace of a string is already in collapsed form: every whitespace
character is a plain space and no two whitespace characters are adjacent.
This is the hypothesis predicate of the amended idempotence claim for
`clean_text`. -/
def wsOk : Str → Bool
  | [] => true
  | [c] => !pyIsSpace c || (c == ' ')
  | c1 :: c2 :: rest =>
    (!pyIsSpace c1 || (c1 == ' ')) && !(pyIsSpace c1 && pyIsSpace c2) &&
      wsOk (c2 :: rest)

/-! ### Generic list lemmas -/

theorem length_dropWhile_le {α : Type} (p : α → Bool) (l : List α) :
    (l.dropWhile p).length ≤ l.length := by
  induction l with
  | nil => simp
  | cons c rest ih =>
    by_cases h : p c
    · rw [List.dropWhile_cons_of_pos h]
      exact Nat.le_succ_of_le ih
    · rw [List.dropWhile_cons_of_neg h]

theorem mem_of_mem_dropWhile {α : Type} {p : α → Bool} {l : List α} {x : α}
    (h : x ∈ l.dropWhile p) : x ∈ l := by
  induction l with
  | nil => simp at h
  | cons c rest ih =>
    by_cases hc : p c
    · rw [List.dropWhile_cons_of_pos hc] at h
      exact List.mem_cons_of_mem _ (ih h)
    · rwa [List.dropWhile_cons_of_neg hc] at h

/-! ### Conversation Store lemmas -/

theorem updateStore_same (store : ConvStore) (sid : Str) (v : FileState) :
    updateStore store sid v sid = v := by
  simp [updateStore]

theorem load_after_append_of_valid (sid : Str) (inputs : List AppendInput) :
    ∀ (store : ConvStore) (entries : List Exchange),
      store sid = .valid entries →
      load_conversation (appendAll store sid inputs) sid =
        entries ++ inputs.map exchangeOf := by
  induction inputs with
  | nil =>
    intro store entries h
    simp [appendAll, load_conversation, h]
  | cons i rest ih =>
    intro store entries h
    have hsave : save_conversation store sid i.question i.answer i.context i.now
        = updateStore store sid (.valid (entries ++ [exchangeOf i])) := by
      simp [save_conversation, h, exchangeOf]
    rw [appendAll, hsave, ih _ _ (updateStore_same _ _ _)]
    simp

/-- C4: starting from no record, a sequence of appends for a session is fully
and orderly visible to a subsequent load: exactly one Exchange per append, in
append order, carrying that append's timestamp, question, answer and
context-source count. -/
theorem load_after_append_sequence (store : ConvStore) (sid : Str)
    (inputs : List AppendInput) (h : store sid = .absent) :
    load_conversation (appendAll store sid inputs) sid = inputs.map exchangeOf := by
  cases inputs with
  | nil => simp [appendAll, load_conversation, h]
  | cons i rest =>
    have hsave : save_conversation store sid i.question i.answer i.context i.now
        = updateStore store sid (.valid [exchangeOf i]) := by
      simp [save_conversation, h, exchangeOf]
    rw [appendAll, hsave,
      load_after_append_of_valid sid rest _ _ (updateStore_same _ _ _)]
    simp

/-- Concrete run for C4: two appends on a fresh session load back as the two
corresponding Exchanges. -/
theorem load_after_append_sequence_witness :
    load_conversation
      (appendAll emptyStore (str "s")
        [⟨str "t1", str "q1", str "a1", [str "c1", str "c2"]⟩,
         ⟨str "t2", str "q2", str "a2", []⟩]) (str "s") =
      [⟨str "t1", str "q1", str "a1", 2⟩, ⟨str "t2", str "q2", str "a2", 0⟩] := by
  have h := load_after_append_sequence emptyStore (str "s")
    [⟨str "t1", str "q1", str "a1", [str "c1", str "c2"]⟩,
     ⟨str "t2", str "q2", str "a2", []⟩] rfl
  exact h

/-- C3: clearing a session with no record reports false, keeps the store
unchanged (no record is created) and surfaces the "info" status; clearing a
session with a record reports true, a subsequent load of that session gives
the empty sequence, and the endpoint surfaces the "success" status. -/
theorem clear_conversation_spec (store : ConvStore) (sid : Str) :
    (store sid = .absent →
      clear_conversation store sid = (false, store) ∧
      (clear_conversation_history store sid).1.status = str "info" ∧
      (clear_conversation_history store sid).2 = store) ∧
    (store sid ≠ .absent →
      (clear_conversation store sid).1 = true ∧
      load_conversation (clear_conversation store sid).2 sid = [] ∧
      (clear_conversation_history store sid).1.status = str "success") := by
  constructor
  · intro h
    refine ⟨?_, ?_, ?_⟩ <;>
      simp [clear_conversation, clear_conversation_history, h]
  · intro h
    have hclear : clear_conversation store sid =
        (true, updateStore store sid .absent) := by
      cases hs : store sid with
      | absent => exact absurd hs h
      | malformed => simp [clear_conversation, hs]
      | valid entries => simp [clear_conversation, hs]
    refine ⟨?_, ?_, ?_⟩ <;>
      simp [hclear, clear_conversation_history, load_conversation, updateStore_same]

/-- Concrete run for C3: both the no-record and the existing-record cases. -/
theorem clear_conversation_spec_witness :
    (clear_conversation emptyStore (str "s") = (false, emptyStore) ∧
      (clear_conversation_history emptyStore (str "s")).1.status = str "info") ∧
    ((clear_conversation oneRecordStore (str "s")).1 = true ∧
      load_conversation (clear_conversation oneRecordStore (str "s")).2 (str "s") = [] ∧
      (clear_conversation_history oneRecordStore (str "s")).1.status = str "success") := by
  have h1 := (clear_conversation_spec emptyStore (str "s")).1 rfl
  have h2 := (clear_conversation_spec oneRecordStore (str "s")).2 (by decide)
  exact ⟨⟨h1.1, h1.2.1⟩, h2⟩

/-- Results of `process_query` depend on the store only through the loaded
history of the addressed session (the store component of the output aside). -/
theorem process_query_fst_congr (retriever : Str → List RetrievedDoc)
    (llm : Str → Str → Str → Except Unit Str) (now question sid : Str)
    (s1 s2 : ConvStore)
    (h : load_conversation s1 sid = load_conversation s2 sid) :
    (process_query retriever llm now question sid s1).1 =
      (process_query retriever llm now question sid s2).1 := by
  unfold process_query
  cases hv : validate_question question with
  | error m => rfl
  | ok q =>
    simp only [h]
    cases hd : (retriever q).isEmpty
    · cases hl : llm (context_text_of (retriever q))
        (format_conversation_history (load_conversation s2 sid)) q <;>
        simp [hd, hl]
    · simp [hd]

/-- C10: `load_conversation` is total; an absent, unreadable or malformed
session file loads as the empty history, and `process_query` treats such a
session exactly as a session with no file (same outcome, up to the store it
returns). -/
theorem load_conversation_total (store : ConvStore) (sid : Str)
    (h : store sid = .absent ∨ store sid = .malformed) :
    load_conversation store sid = [] ∧
    ∀ retriever llm now question,
      (process_query retriever llm now question sid store).1 =
        (process_query retriever llm now question sid
          (updateStore store sid .absent)).1 := by
  have hload : load_conversation store sid = [] := by
    cases h with
    | inl h => simp [load_conversation, h]
    | inr h => simp [load_conversation, h]
  refine ⟨hload, fun retriever llm now question => ?_⟩
  apply process_query_fst_congr
  rw [hload]
  simp [load_conversation, updateStore_same]

/-- Concrete run for C10: a malformed session file loads as the empty
history and a query on it gives the same outcome as on a fresh session. -/
theorem load_conversation_total_witness :
    load_conversation corruptStore (str "s") = [] ∧
    (process_query (fun _ => []) (fun _ _ _ => .error ()) (str "t") (str "hello")
        (str "s") corruptStore).1 =
      (process_query (fun _ => []) (fun _ _ _ => .error ()) (str "t") (str "hello")
        (str "s") (updateStore corruptStore (str "s") .absent)).1 := by
  have h := load_conversation_total corruptStore (str "s") (Or.inr (by decide))
  exact ⟨h.1, h.2 _ _ _ _⟩

/-- C6: the Index Builder rejects an empty document list with the fixed
input-error before performing any chunking, embedding or persistence step
(the error outcome carries no trace events), and proceeds through chunking,
embedding and persistence on any non-empty list. -/
theorem create_vector_db_empty_input_check
    (split : List Document → List Document) (docs : List Document) :
    create_vector_db split [] =
      .error (str "No documents available for vector database creation") ∧
    (docs ≠ [] →
      create_vector_db split docs =
        .ok [.chunked (split docs).length, .embedded, .persisted]) := by
  constructor
  · rfl
  · intro h
    simp [create_vector_db, h]

/-! ### Fuel irrelevance and basic properties of the scanners -/

theorem collapseWsF_fuel (f : Nat) :
    ∀ (g : Nat) (l : Str), l.length ≤ f → l.length ≤ g →
      collapseWsF f l = collapseWsF g l := by
  induction f with
  | zero =>
    intro g l hf hg
    have : l = [] := List.eq_nil_of_length_eq_zero (Nat.le_zero.mp hf)
    subst this
    cases g <;> rfl
  | succ f ih =>
    intro g l hf hg
    cases l with
    | nil => cases g <;> rfl
    | cons c rest =>
      cases g with
      | zero => simp at hg
      | succ g =>
        simp only [List.length_cons, Nat.succ_le_succ_iff] at hf hg
        simp only [collapseWsF]
        by_cases hc : pyIsSpace c
        · simp only [hc, if_pos]
          exact congrArg _ (ih g _
            (le_trans (length_dropWhile_le _ _) hf)
            (le_trans (length_dropWhile_le _ _) hg))
        · simp only [hc, if_neg, Bool.false_eq_true, not_false_iff]
          exact congrArg _ (ih g _ hf hg)

theorem pyWordsF_fuel (f : Nat) :
    ∀ (g : Nat) (l : Str), l.length ≤ f → l.length ≤ g →
      pyWordsF f l = pyWordsF g l := by
  induction f with
  | zero =>
    intro g l hf hg
    have : l = [] := List.eq_nil_of_length_eq_zero (Nat.le_zero.mp hf)
    subst this
    cases g <;> rfl
  | succ f ih =>
    intro g l hf hg
    cases l with
    | nil => cases g <;> rfl
    | cons c rest =>
      cases g with
      | zero => simp at hg
      | succ g =>
        simp only [List.length_cons, Nat.succ_le_succ_iff] at hf hg
        simp only [pyWordsF]
        by_cases hc : pyIsSpace c
        · simp only [hc, if_pos]
          exact ih g _ hf hg
        · simp only [hc, if_neg, Bool.false_eq_true, not_false_iff]
          exact congrArg _ (ih g _
            (le_trans (length_dropWhile_le _ _) hf)
            (le_trans (length_dropWhile_le _ _) hg))

theorem pyWordsF_dropWhile_space (f : Nat) :
    ∀ l : Str, l.length ≤ f →
      pyWordsF f (l.dropWhile pyIsSpace) = pyWordsF f l := by
  induction f with
  | zero => intro l hf; rfl
  | succ f ih =>
    intro l hf
    cases l with
    | nil => rfl
    | cons c rest =>
      simp only [List.length_cons, Nat.succ_le_succ_iff] at hf
      by_cases hc : pyIsSpace c
      · rw [List.dropWhile_cons_of_pos hc]
        have h1 : pyWordsF (f + 1) (rest.dropWhile pyIsSpace) =
            pyWordsF f (rest.dropWhile pyIsSpace) :=
          pyWordsF_fuel _ _ _
            (le_trans (length_dropWhile_le _ _) (Nat.le_succ_of_le hf))
            (le_trans (length_dropWhile_le _ _) hf)
        rw [h1, ih rest hf]
        simp only [pyWordsF, hc, if_pos]
      · rw [List.dropWhile_cons_of_neg hc]

theorem collapseWsF_nonspace_prefix (t : Str) :
    ∀ (f : Nat) (d : Str), (∀ c ∈ t, pyIsSpace c = false) →
      (t ++ d).length ≤ f →
      collapseWsF f (t ++ d) = t ++ collapseWsF f d := by
  induction t with
  | nil => intro f d _ _; rfl
  | cons a t2 ih =>
    intro f d hns hf
    cases f with
    | zero => simp at hf
    | succ f =>
      have ha : pyIsSpace a = false := hns a (List.mem_cons_self _ _)
      simp only [List.cons_append, List.length_cons,
        Nat.succ_le_succ_iff] at hf ⊢
      simp only [collapseWsF, ha, Bool.false_eq_true, if_neg, not_false_iff]
      rw [ih f d (fun c hc => hns c (List.mem_cons_of_mem _ hc)) hf,
        collapseWsF_fuel f (f + 1) d
          (le_trans (by simp) hf) (Nat.le_succ_of_le (le_trans (by simp) hf))]

theorem joinSep_words_length_le_aux (f : Nat) :
    ∀ l : Str, l.length ≤ f →
      (joinSep [' '] (pyWordsF f l)).length ≤ (collapseWsF f l).length ∧
      ((∀ e, l.head? = some e → pyIsSpace e = true) → pyWordsF f l ≠ [] →
        (joinSep [' '] (pyWordsF f l)).length + 1 ≤ (collapseWsF f l).length) := by
  induction f with
  | zero =>
    intro l hf
    constructor
    · simp [pyWordsF, joinSep]
    · intro _ hne; exact absurd rfl hne
  | succ f ih =>
    intro l hf
    cases l with
    | nil =>
      constructor
      · simp [pyWordsF, joinSep, collapseWsF]
      · intro _ hne; exact absurd rfl hne
    | cons c rest =>
      simp only [List.length_cons, Nat.succ_le_succ_iff] at hf
      by_cases hc : pyIsSpace c
      · have hstep : pyWordsF (f + 1) (c :: rest) = pyWordsF f rest := by
          simp [pyWordsF, hc]
        have hcstep : collapseWsF (f + 1) (c :: rest) =
            ' ' :: collapseWsF f (rest.dropWhile pyIsSpace) := by
          simp [collapseWsF, hc]
        have hskip : pyWordsF f rest = pyWordsF f (rest.dropWhile pyIsSpace) :=
          (pyWordsF_dropWhile_space f rest hf).symm
        have hmain := (ih (rest.dropWhile pyIsSpace)
          (le_trans (length_dropWhile_le _ _) hf)).1
        constructor
        · rw [hstep, hcstep, hskip]
          simpa using Nat.le_succ_of_le hmain
        · intro _ _
          rw [hstep, hcstep, hskip]
          simpa using Nat.succ_le_succ hmain
      · have hstep : pyWordsF (f + 1) (c :: rest) =
            (c :: rest.takeWhile fun x => !pyIsSpace x) ::
              pyWordsF f (rest.dropWhile fun x => !pyIsSpace x) := by
          simp [pyWordsF, hc]
        have htns : ∀ x ∈ rest.takeWhile (fun x => !pyIsSpace x),
            pyIsSpace x = false := by
          intro x hx
          simpa using List.mem_takeWhile_imp hx
        have hrest := List.takeWhile_append_dropWhile (fun x => !pyIsSpace x) rest
        have hcoll : collapseWsF (f + 1) (c :: rest) =
            c :: ((rest.takeWhile fun x => !pyIsSpace x) ++
              collapseWsF f (rest.dropWhile fun x => !pyIsSpace x)) := by
          simp only [collapseWsF, hc, Bool.false_eq_true, if_neg, not_false_iff]
          congr 1
          conv_lhs => rw [← hrest]
          exact collapseWsF_nonspace_prefix _ f _ htns (by rw [hrest]; exact hf)
        constructor
        swap
        · intro hsp _
          exact absurd (hsp c rfl) hc
        · rw [hstep, hcoll]
          cases hw : pyWordsF f (rest.dropWhile fun x => !pyIsSpace x) with
          | nil =>
            simp [joinSep, List.length_append]
          | cons w ws =>
            have hdlen : (rest.dropWhile fun x => !pyIsSpace x).length ≤ f :=
              le_trans (length_dropWhile_le _ _) hf
            have hdsp : ∀ e,
                (rest.dropWhile fun x => !pyIsSpace x).head? = some e →
                pyIsSpace e = true := by
              intro e he
              have h2 := List.head?_dropWhile_not (fun x => !pyIsSpace x) rest
              rw [he] at h2
              simpa using h2
            have hne : pyWordsF f (rest.dropWhile fun x => !pyIsSpace x) ≠ [] := by
              rw [hw]; exact List.cons_ne_nil _ _
            have hkey := (ih _ hdlen).2 hdsp hne
            rw [hw] at hkey
            simp only [joinSep, List.length_cons, List.length_append,
              List.length_nil]
            omega

theorem joinSep_words_length_le (l : Str) :
    (joinSep [' '] (pyWords l)).length ≤ (collapseWs l).length :=
  (joinSep_words_length_le_aux l.length l (le_refl _)).1

theorem validate_question_short (question : Str)
    (h : question = [] ∨ (collapseWs question).length < 3) :
    ∃ msg, validate_question question = .error msg := by
  by_cases h0 : question = []
  · refine ⟨str "Question cannot be empty", ?_⟩
    simp [validate_question, h0]
  · have hlen : (collapseWs question).length < 3 := h.resolve_left h0
    by_cases h1 : pyStrip question = []
    · refine ⟨str "Question cannot be empty", ?_⟩
      simp [validate_question, h0, h1]
    · refine ⟨str "Question is too short", ?_⟩
      have hlt : (joinSep [' '] (pyWords question)).length < 3 :=
        lt_of_le_of_lt (joinSep_words_length_le question) hlen
      simp [validate_question, h0, h1, hlt]

/-- C1: a question that is empty, or shorter than three characters once
whitespace runs are collapsed, is rejected by `process_query` with an
input-validation fault, the session's record untouched (the whole store is
returned unchanged) and the language model never invoked. -/
theorem process_query_rejects_short_question
    (retriever : Str → List RetrievedDoc)
    (llm : Str → Str → Str → Except Unit Str) (now question sid : Str)
    (store : ConvStore)
    (h : question = [] ∨ (collapseWs question).length < 3) :
    ∃ msg, process_query retriever llm now question sid store =
      (.error (.validation msg), store, 0) := by
  obtain ⟨msg, hmsg⟩ := validate_question_short question h
  exact ⟨msg, by simp [process_query, hmsg]⟩

/-- Concrete run for C1: the one-character question "a" is rejected and the
store is returned unchanged. -/
theorem process_query_rejects_short_question_witness :
    ∃ msg, process_query (fun _ => [docWebA]) (fun _ _ _ => .ok (str "ans"))
        (str "t") (str "a") (str "s") emptyStore =
      (.error (.validation msg), emptyStore, 0) :=
  process_query_rejects_short_question _ _ _ _ _ _ (Or.inr (by decide))

/-- C2: when the retriever returns no documents for a valid question,
`process_query` short-circuits: it returns exactly the fixed fallback answer
with empty context and empty sources, leaves the store unchanged (no
Exchange appended), and performs zero language-model invocations. -/
theorem process_query_zero_docs_fallback (retriever : Str → List RetrievedDoc)
    (llm : Str → Str → Str → Except Unit Str) (now question q sid : Str)
    (store : ConvStore) (hv : validate_question question = .ok q)
    (hr : retriever q = []) :
    process_query retriever llm now question sid store =
      (.ok ⟨fallbackAnswer, [], []⟩, store, 0) := by
  simp [process_query, hv, hr]

/-- Concrete run for C2: a retriever returning nothing gives the fallback
response on an untouched store without calling the model. -/
theorem process_query_zero_docs_fallback_witness :
    process_query (fun _ => []) (fun _ _ _ => .ok []) (str "t") (str "hello")
        (str "s") emptyStore =
      (.ok ⟨fallbackAnswer, [], []⟩, emptyStore, 0) :=
  process_query_zero_docs_fallback _ _ _ _ (str "hello") _ _ rfl rfl

/-- C5: on a successful query the returned source list has set semantics
over the retrieved chunks' source labels: it has no duplicates and contains
exactly the labels occurring among the retrieved chunks (element order is
not part of the statement). -/
theorem process_query_sources_set_semantics (retriever : Str → List RetrievedDoc)
    (llm : Str → Str → Str → Except Unit Str) (now question q sid ans : Str)
    (store : ConvStore) (docs : List RetrievedDoc)
    (hv : validate_question question = .ok q) (hr : retriever q = docs)
    (hne : docs ≠ [])
    (hllm : llm (context_text_of docs)
      (format_conversation_history (load_conversation store sid)) q = .ok ans) :
    ∃ r, (process_query retriever llm now question sid store).1 = .ok r ∧
      r.sources.Nodup ∧
      ∀ lbl, lbl ∈ r.sources ↔
        lbl ∈ docs.map fun d => d.metadata_source.getD defaultSourceLabel := by
  have hd : docs.isEmpty = false := by
    cases docs with
    | nil => exact absurd rfl hne
    | cons _ _ => rfl
  refine ⟨⟨ans, docs.map snippetOf,
    (docs.map fun d => d.metadata_source.getD defaultSourceLabel).dedup⟩,
    ?_, List.nodup_dedup _, fun lbl => List.mem_dedup⟩
  simp [process_query, hv, hr, hd, hllm]

/-- Concrete run for C5: two chunks with the same label yield a
duplicate-free source list with exactly that label. -/
theorem process_query_sources_set_semantics_witness :
    ∃ r, (process_query (fun _ => [docWebA, docWebB]) (fun _ _ _ => .ok (str "ans"))
        (str "t") (str "hello") (str "s") emptyStore).1 = .ok r ∧
      r.sources.Nodup ∧
      ∀ lbl, lbl ∈ r.sources ↔
        lbl ∈ [docWebA, docWebB].map fun d =>
          d.metadata_source.getD defaultSourceLabel :=
  process_query_sources_set_semantics _ _ _ _ (str "hello") _ (str "ans") _ _
    rfl rfl (by simp) rfl

/-- C9: when the language-model call fails, `process_query` propagates the
failure with the store exactly as before (no partial Exchange is written)
after a single model invocation (no retry), and the service boundary maps it
to the generic 500 server fault. -/
theorem process_query_llm_failure_no_partial_write
    (retriever : Str → List RetrievedDoc)
    (llm : Str → Str → Str → Except Unit Str) (now question q sid : Str)
    (store : ConvStore) (docs : List RetrievedDoc)
    (hv : validate_question question = .ok q) (hr : retriever q = docs)
    (hne : docs ≠ [])
    (hllm : llm (context_text_of docs)
      (format_conversation_history (load_conversation store sid)) q = .error ()) :
    process_query retriever llm now question sid store =
      (.error .llmFailure, store, 1) ∧
    query_loan_assistant retriever llm now question sid store =
      (.error (500, str "Failed to process query. Please try again."), store) := by
  have hd : docs.isEmpty = false := by
    cases docs with
    | nil => exact absurd rfl hne
    | cons _ _ => rfl
  have h1 : process_query retriever llm now question sid store =
      (.error .llmFailure, store, 1) := by
    simp [process_query, hv, hr, hd, hllm]
  exact ⟨h1, by simp [query_loan_assistant, h1]⟩

/-- Concrete run for C9: a failing model leaves the store untouched after
one invocation and surfaces the generic 500 fault. -/
theorem process_query_llm_failure_no_partial_write_witness :
    process_query (fun _ => [docWebA]) (fun _ _ _ => .error ()) (str "t")
        (str "hello") (str "s") emptyStore =
      (.error .llmFailure, emptyStore, 1) ∧
    query_loan_assistant (fun _ => [docWebA]) (fun _ _ _ => .error ()) (str "t")
        (str "hello") (str "s") emptyStore =
      (.error (500, str "Failed to process query. Please try again."),
        emptyStore) :=
  process_query_llm_failure_no_partial_write _ _ _ _ (str "hello") _ _ _
    rfl rfl (by simp) rfl

/-- C7: the formatted history block is the fixed marker for an empty
history; otherwise it renders exactly the last three Exchanges (all of them
when fewer), in order, as alternating "User:"/"Assistant:" lines, each
stored answer cut to its first 200 characters (with the ellipsis marker the
code always appends). -/
theorem format_conversation_history_spec (e1 e2 e3 : Exchange)
    (pre : List Exchange) :
    format_conversation_history [] = str "No previous conversation" ∧
    format_conversation_history [e1] =
      str "User: " ++ e1.question ++ str "\n" ++
      str "Assistant: " ++ e1.answer.take 200 ++ str "..." ∧
    format_conversation_history [e1, e2] =
      str "User: " ++ e1.question ++ str "\n" ++
      str "Assistant: " ++ e1.answer.take 200 ++ str "..." ++ str "\n" ++
      str "User: " ++ e2.question ++ str "\n" ++
      str "Assistant: " ++ e2.answer.take 200 ++ str "..." ∧
    format_conversation_history (pre ++ [e1, e2, e3]) =
      str "User: " ++ e1.question ++ str "\n" ++
      str "Assistant: " ++ e1.answer.take 200 ++ str "..." ++ str "\n" ++
      str "User: " ++ e2.question ++ str "\n" ++
      str "Assistant: " ++ e2.answer.take 200 ++ str "..." ++ str "\n" ++
      str "User: " ++ e3.question ++ str "\n" ++
      str "Assistant: " ++ e3.answer.take 200 ++ str "..." := by
  have hlast : (pre ++ [e1, e2, e3]).drop ((pre ++ [e1, e2, e3]).length - 3) =
      [e1, e2, e3] := by
    rw [List.length_append]
    simp only [List.length_cons, List.length_nil]
    have : pre.length + (0 + 1 + 1 + 1) - 3 = pre.length := by omega
    rw [this]
    exact List.drop_left pre [e1, e2, e3]
  refine ⟨rfl, ?_, ?_, ?_⟩
  · simp [format_conversation_history, joinSep, str, List.append_assoc]
  · simp [format_conversation_history, joinSep, str, List.append_assoc]
  · rw [format_conversation_history, if_neg (by simp), hlast]
    simp [joinSep, str, List.append_assoc]

/-- Concrete run for C6: the empty list is rejected, a one-document list is
processed. -/
theorem create_vector_db_empty_input_check_witness :
    create_vector_db (fun d => d) [] =
      .error (str "No documents available for vector database creation") ∧
    create_vector_db (fun d => d) [⟨str "text", str "q", str "src"⟩] =
      .ok [.chunked 1, .embedded, .persisted] := by
  have h := create_vector_db_empty_input_check (fun d => d)
    [⟨str "text", str "q", str "src"⟩]
  exact ⟨h.1, h.2 (by simp)⟩

/-! ### Idempotence analysis of clean_text -/

/-- C8 counterexample: `clean_text` is not idempotent.  On `"a ? b"` the
character filter deletes `?` and leaves the double space `"a  b"`, which a
second pass collapses to `"a b"`. -/
theorem clean_text_not_idempotent :
    clean_text (clean_text (str "a ? b")) ≠ clean_text (str "a ? b") := by
  decide

theorem wsOk_tail {c : Char} {rest : Str} (h : wsOk (c :: rest) = true) :
    wsOk rest = true := by
  cases rest with
  | nil => rfl
  | cons c2 rest2 =>
    simp only [wsOk, Bool.and_eq_true] at h
    exact h.2

theorem wsOk_head {c : Char} {rest : Str} (h : wsOk (c :: rest) = true) :
    (!pyIsSpace c || (c == ' ')) = true := by
  cases rest with
  | nil => simpa [wsOk] using h
  | cons c2 rest2 =>
    simp only [wsOk, Bool.and_eq_true] at h
    exact h.1.1

theorem wsOk_pair {c c2 : Char} {rest : Str}
    (h : wsOk (c :: c2 :: rest) = true) :
    (!(pyIsSpace c && pyIsSpace c2)) = true := by
  simp only [wsOk, Bool.and_eq_true] at h
  exact h.1.2

theorem wsOk_cons_intro {c : Char} {rest : Str}
    (hhead : (!pyIsSpace c || (c == ' ')) = true)
    (hpair : ∀ e, rest.head? = some e → (!(pyIsSpace c && pyIsSpace e)) = true)
    (htail : wsOk rest = true) : wsOk (c :: rest) = true := by
  cases rest with
  | nil => simpa [wsOk] using hhead
  | cons c2 rest2 =>
    simp only [wsOk, Bool.and_eq_true]
    exact ⟨⟨hhead, hpair c2 rfl⟩, htail⟩

theorem collapseWsF_wsOk (f : Nat) :
    ∀ l : Str, l.length ≤ f → wsOk l = true → collapseWsF f l = l := by
  induction f with
  | zero =>
    intro l hf _
    have : l = [] := List.eq_nil_of_length_eq_zero (Nat.le_zero.mp hf)
    subst this
    rfl
  | succ f ih =>
    intro l hf hw
    cases l with
    | nil => rfl
    | cons c rest =>
      simp only [List.length_cons, Nat.succ_le_succ_iff] at hf
      by_cases hc : pyIsSpace c
      · have hc' : c = ' ' := by
          have := wsOk_head hw
          simp [hc] at this
          exact this
        have hdrop : rest.dropWhile pyIsSpace = rest := by
          cases rest with
          | nil => rfl
          | cons e rest2 =>
            have hp := wsOk_pair hw
            have he : pyIsSpace e = false := by
              cases hpe : pyIsSpace e
              · rfl
              · rw [hc, hpe] at hp
                simp at hp
            exact List.dropWhile_cons_of_neg (by simp [he])
        simp only [collapseWsF, hc, if_pos]
        rw [hdrop, ih rest hf (wsOk_tail hw), hc']
      · simp only [collapseWsF, hc, Bool.false_eq_true, if_neg, not_false_iff]
        rw [ih rest hf (wsOk_tail hw)]

theorem collapseWs_wsOk {l : Str} (h : wsOk l = true) : collapseWs l = l :=
  collapseWsF_wsOk l.length l (le_refl _) h

theorem isPrefixOf_false_of_not_mem {p l : Str} {x : Char} (hx : x ∈ p)
    (h : x ∉ l) : p.isPrefixOf l = false := by
  cases hb : p.isPrefixOf l
  · rfl
  · exfalso
    have hpre : p <+: l := List.isPrefixOf_iff_prefix.mp hb
    exact h (hpre.subset hx)

theorem schemeLen_eq_none {l : Str} (h : ':' ∉ l) : schemeLen l = none := by
  unfold schemeLen
  rw [isPrefixOf_false_of_not_mem (by decide) h,
    isPrefixOf_false_of_not_mem (by decide) h]
  simp

theorem urlSubF_no_colon (f : Nat) :
    ∀ l : Str, l.length ≤ f → ':' ∉ l → urlSubF f l = l := by
  induction f with
  | zero => intro l _ _; rfl
  | succ f ih =>
    intro l hf h
    cases l with
    | nil => rfl
    | cons c rest =>
      simp only [List.length_cons, Nat.succ_le_succ_iff] at hf
      simp only [urlSubF, schemeLen_eq_none h]
      rw [ih rest hf (fun hm => h (List.mem_cons_of_mem _ hm))]

theorem urlSub_no_colon {l : Str} (h : ':' ∉ l) : urlSub l = l :=
  urlSubF_no_colon l.length l (le_refl _) h

theorem percentSubF_no_percent (f : Nat) :
    ∀ l : Str, l.length ≤ f → '%' ∉ l → percentSubF f l = l := by
  induction f with
  | zero => intro l _ _; rfl
  | succ f ih =>
    intro l hf h
    cases l with
    | nil => rfl
    | cons c rest =>
      simp only [List.length_cons, Nat.succ_le_succ_iff] at hf
      by_cases hc : c.isDigit
      · have hhead : (((c :: rest).dropWhile Char.isDigit).dropWhile
            pyIsSpace).head? ≠ some '%' := by
          intro hsome
          apply h
          have hmem : '%' ∈ ((c :: rest).dropWhile Char.isDigit).dropWhile
              pyIsSpace := by
            cases hcase : ((c :: rest).dropWhile Char.isDigit).dropWhile
                pyIsSpace with
            | nil => rw [hcase] at hsome; simp at hsome
            | cons x xs =>
              rw [hcase] at hsome
              simp only [List.head?_cons, Option.some.injEq] at hsome
              rw [← hsome]
              exact List.mem_cons_self _ _
          exact mem_of_mem_dropWhile (mem_of_mem_dropWhile hmem)
        have hr1len : ((c :: rest).dropWhile Char.isDigit).length ≤ f := by
          rw [List.dropWhile_cons_of_pos hc]
          exact le_trans (length_dropWhile_le _ _) hf
        have hr1mem : '%' ∉ (c :: rest).dropWhile Char.isDigit := by
          intro hm
          exact h (mem_of_mem_dropWhile hm)
        simp only [percentSubF, hc, if_pos, hhead, if_neg, not_false_iff]
        rw [ih _ hr1len hr1mem]
        exact List.takeWhile_append_dropWhile _ _
      · simp only [percentSubF, hc, Bool.false_eq_true, if_neg, not_false_iff]
        rw [ih rest hf (fun hm => h (List.mem_cons_of_mem _ hm))]

theorem percentSub_no_percent {l : Str} (h : '%' ∉ l) : percentSub l = l :=
  percentSubF_no_percent l.length l (le_refl _) h

/-! ### splitOnDot lemmas -/

theorem splitOnDot_ne_nil (l : Str) : splitOnDot l ≠ [] := by
  cases l with
  | nil => simp [splitOnDot]
  | cons c rest =>
    by_cases hc : c = '.'
    · simp [splitOnDot, hc]
    · simp only [splitOnDot, hc, if_neg, not_false_iff]
      cases splitOnDot rest <;> simp

theorem splitOnDot_cons_ne (c : Char) (rest : Str) (hc : ¬c = '.') :
    ∃ s ss, splitOnDot rest = s :: ss ∧ splitOnDot (c :: rest) = (c :: s) :: ss := by
  cases h : splitOnDot rest with
  | nil => exact absurd h (splitOnDot_ne_nil rest)
  | cons s ss =>
    refine ⟨s, ss, rfl, ?_⟩
    simp [splitOnDot, hc, h]

theorem mem_of_mem_splitOnDot :
    ∀ (l seg : Str), seg ∈ splitOnDot l → ∀ x ∈ seg, x ∈ l := by
  intro l
  induction l with
  | nil =>
    intro seg hseg x hx
    simp [splitOnDot] at hseg
    subst hseg
    simp at hx
  | cons c rest ih =>
    intro seg hseg x hx
    by_cases hc : c = '.'
    · simp only [splitOnDot, hc, if_pos] at hseg
      cases hseg with
      | head => simp at hx
      | tail _ hmem => exact List.mem_cons_of_mem _ (ih seg hmem x hx)
    · obtain ⟨s, ss, hsplit, hstep⟩ := splitOnDot_cons_ne c rest hc
      rw [hstep] at hseg
      cases hseg with
      | head =>
        cases hx with
        | head => exact List.mem_cons_self _ _
        | tail _ hxs =>
          exact List.mem_cons_of_mem _
            (ih s (by rw [hsplit]; exact List.mem_cons_self _ _) x hxs)
      | tail _ hmem =>
        exact List.mem_cons_of_mem _
          (ih seg (by rw [hsplit]; exact List.mem_cons_of_mem _ hmem) x hx)

theorem not_dot_mem_splitOnDot :
    ∀ (l seg : Str), seg ∈ splitOnDot l → '.' ∉ seg := by
  intro l
  induction l with
  | nil =>
    intro seg hseg
    simp [splitOnDot] at hseg
    subst hseg
    simp
  | cons c rest ih =>
    intro seg hseg
    by_cases hc : c = '.'
    · simp only [splitOnDot, hc, if_pos] at hseg
      cases hseg with
      | head => simp
      | tail _ hmem => exact ih seg hmem
    · obtain ⟨s, ss, hsplit, hstep⟩ := splitOnDot_cons_ne c rest hc
      rw [hstep] at hseg
      cases hseg with
      | head =>
        intro hdot
        cases hdot with
        | head => exact hc rfl
        | tail _ hds =>
          exact ih s (by rw [hsplit]; exact List.mem_cons_self _ _) hds
      | tail _ hmem =>
        exact ih seg (by rw [hsplit]; exact List.mem_cons_of_mem _ hmem)

theorem splitOnDot_no_dot : ∀ l : Str, '.' ∉ l → splitOnDot l = [l] := by
  intro l
  induction l with
  | nil => intro _; rfl
  | cons c rest ih =>
    intro h
    have hc : ¬c = '.' := by
      intro heq
      exact h (by rw [heq]; exact List.mem_cons_self _ _)
    obtain ⟨s, ss, hsplit, hstep⟩ := splitOnDot_cons_ne c rest hc
    rw [ih (fun hm => h (List.mem_cons_of_mem _ hm))] at hsplit
    obtain ⟨hs, hss⟩ : s = rest ∧ ss = [] := by
      cases hsplit
      exact ⟨rfl, rfl⟩
    rw [hstep, hs, hss]

theorem splitOnDot_append_dot :
    ∀ (a m : Str), '.' ∉ a → splitOnDot (a ++ '.' :: m) = a :: splitOnDot m := by
  intro a
  induction a with
  | nil =>
    intro m _
    simp [splitOnDot]
  | cons c a2 ih =>
    intro m h
    have hc : ¬c = '.' := by
      intro heq
      exact h (by rw [heq]; exact List.mem_cons_self _ _)
    rw [List.cons_append]
    obtain ⟨s, ss, hsplit, hstep⟩ :=
      splitOnDot_cons_ne c (a2 ++ '.' :: m) hc
    rw [ih m (fun hm => h (List.mem_cons_of_mem _ hm))] at hsplit
    obtain ⟨hs, hss⟩ : s = a2 ∧ ss = splitOnDot m := by
      cases hsplit
      exact ⟨rfl, rfl⟩
    rw [hstep, hs, hss]

theorem splitOnDot_joinSep :
    ∀ (rest : List Str) (a : Str), '.' ∉ a → (∀ seg ∈ rest, '.' ∉ seg) →
      splitOnDot (joinSep (str ". ") (a :: rest)) =
        a :: rest.map (fun seg => ' ' :: seg) := by
  intro rest
  induction rest with
  | nil =>
    intro a ha _
    exact splitOnDot_no_dot a ha
  | cons b rest2 ih =>
    intro a ha hrest
    have hj : joinSep (str ". ") (a :: b :: rest2) =
        a ++ '.' :: ' ' :: joinSep (str ". ") (b :: rest2) := by
      show a ++ str ". " ++ joinSep (str ". ") (b :: rest2) = _
      rw [List.append_assoc]
      rfl
    rw [hj, splitOnDot_append_dot a _ ha]
    have hdot2 : ¬(' ' : Char) = '.' := by decide
    obtain ⟨s, ss, hsplit, hstep⟩ :=
      splitOnDot_cons_ne ' ' (joinSep (str ". ") (b :: rest2)) hdot2
    rw [ih b (hrest b (List.mem_cons_self _ _))
      (fun seg hs => hrest seg (List.mem_cons_of_mem _ hs))] at hsplit
    obtain ⟨hs, hss⟩ : s = b ∧ ss = rest2.map (fun seg => ' ' :: seg) := by
      cases hsplit
      exact ⟨rfl, rfl⟩
    rw [hstep, hs, hss]
    rfl

/-! ### Strip lemmas -/

theorem pyStripRight_cons (c : Char) (rest : Str) :
    pyStripRight (c :: rest) =
      if (pyStripRight rest).isEmpty && pyIsSpace c then []
      else c :: pyStripRight rest := rfl

theorem pyStripRight_prefix : ∀ l : Str, ∃ b, l = pyStripRight l ++ b := by
  intro l
  induction l with
  | nil => exact ⟨[], rfl⟩
  | cons c rest ih =>
    obtain ⟨b, hb⟩ := ih
    rw [pyStripRight_cons]
    by_cases h : (pyStripRight rest).isEmpty && pyIsSpace c
    · rw [if_pos h]
      exact ⟨c :: rest, rfl⟩
    · rw [if_neg h]
      exact ⟨b, by rw [List.cons_append, ← hb]⟩

theorem mem_of_mem_pyStripRight : ∀ l : Str, ∀ x ∈ pyStripRight l, x ∈ l := by
  intro l
  induction l with
  | nil => intro x hx; exact hx
  | cons c rest ih =>
    intro x hx
    rw [pyStripRight_cons] at hx
    by_cases h : (pyStripRight rest).isEmpty && pyIsSpace c
    · rw [if_pos h] at hx
      simp at hx
    · rw [if_neg h] at hx
      cases hx with
      | head => exact List.mem_cons_self _ _
      | tail _ hm => exact List.mem_cons_of_mem _ (ih x hm)

theorem pyStripRight_idem : ∀ l : Str, pyStripRight (pyStripRight l) = pyStripRight l := by
  intro l
  induction l with
  | nil => rfl
  | cons c rest ih =>
    rw [pyStripRight_cons]
    by_cases h : (pyStripRight rest).isEmpty && pyIsSpace c
    · rw [if_pos h]
      rfl
    · rw [if_neg h, pyStripRight_cons, ih, if_neg h]

theorem pyStripRight_getLast_not_space :
    ∀ l : Str, ∀ x, (pyStripRight l).getLast? = some x → pyIsSpace x = false := by
  intro l
  induction l with
  | nil => intro x hx; simp [pyStripRight] at hx
  | cons c rest ih =>
    intro x hx
    rw [pyStripRight_cons] at hx
    by_cases h : (pyStripRight rest).isEmpty && pyIsSpace c
    · rw [if_pos h] at hx
      simp at hx
    · rw [if_neg h] at hx
      cases hr : pyStripRight rest with
      | nil =>
        rw [hr] at hx
        simp only [List.getLast?_singleton, Option.some.injEq] at hx
        subst hx
        rw [hr] at h
        simpa using h
      | cons y ys =>
        rw [hr] at hx
        rw [List.getLast?_cons_cons] at hx
        exact ih x (by rw [hr]; exact hx)

theorem pyStripRight_head? :
    ∀ l : Str, ∀ x, (pyStripRight l).head? = some x → l.head? = some x := by
  intro l
  cases l with
  | nil => intro x hx; simp [pyStripRight] at hx
  | cons c rest =>
    intro x hx
    rw [pyStripRight_cons] at hx
    by_cases h : (pyStripRight rest).isEmpty && pyIsSpace c
    · rw [if_pos h] at hx
      simp at hx
    · rw [if_neg h] at hx
      simp only [List.head?_cons, Option.some.injEq] at hx
      rw [List.head?_cons, hx]

/-! ### wsOk combination lemmas -/

theorem head?_append_some {l b : Str} {e : Char} (h : l.head? = some e) :
    (l ++ b).head? = some e := by
  cases l with
  | nil => simp at h
  | cons c rest => simpa using h

theorem wsOk_pair' {c : Char} {rest : Str} (h : wsOk (c :: rest) = true) :
    ∀ e, rest.head? = some e → (!(pyIsSpace c && pyIsSpace e)) = true := by
  intro e he
  cases rest with
  | nil => simp at he
  | cons c2 rest2 =>
    simp only [List.head?_cons, Option.some.injEq] at he
    subst he
    exact wsOk_pair h

theorem wsOk_append_left : ∀ a b : Str, wsOk (a ++ b) = true → wsOk a = true := by
  intro a
  induction a with
  | nil => intro b _; rfl
  | cons c a2 ih =>
    intro b h
    rw [List.cons_append] at h
    refine wsOk_cons_intro (wsOk_head h) ?_ (ih b (wsOk_tail h))
    intro e he
    exact wsOk_pair' h e (head?_append_some he)

theorem wsOk_append_right : ∀ a b : Str, wsOk (a ++ b) = true → wsOk b = true := by
  intro a
  induction a with
  | nil => intro b h; exact h
  | cons c a2 ih =>
    intro b h
    rw [List.cons_append] at h
    exact ih b (wsOk_tail h)

theorem wsOk_append_intro : ∀ (a b : Str), wsOk a = true → wsOk b = true →
    (∀ x, a.getLast? = some x → ∀ y, b.head? = some y →
      (!(pyIsSpace x && pyIsSpace y)) = true) →
    wsOk (a ++ b) = true := by
  intro a
  induction a with
  | nil => intro b _ hb _; exact hb
  | cons c a2 ih =>
    intro b ha hb hbd
    rw [List.cons_append]
    cases a2 with
    | nil =>
      refine wsOk_cons_intro (wsOk_head ha) ?_ hb
      intro e he
      exact hbd c (by simp) e he
    | cons c2 a3 =>
      refine wsOk_cons_intro (wsOk_head ha) ?_ ?_
      · intro e he
        rw [List.cons_append, List.head?_cons, Option.some.injEq] at he
        subst he
        exact wsOk_pair ha
      · refine ih b (wsOk_tail ha) hb ?_
        intro x hx y hy
        refine hbd x ?_ y hy
        rw [List.getLast?_cons_cons]
        exact hx

theorem wsOk_dropWhile (p : Char → Bool) {l : Str} (h : wsOk l = true) :
    wsOk (l.dropWhile p) = true := by
  refine wsOk_append_right (l.takeWhile p) _ ?_
  rw [List.takeWhile_append_dropWhile]
  exact h

theorem wsOk_pyStripRight {l : Str} (h : wsOk l = true) :
    wsOk (pyStripRight l) = true := by
  obtain ⟨b, hb⟩ := pyStripRight_prefix l
  refine wsOk_append_left _ b ?_
  rw [← hb]
  exact h

theorem wsOk_pyStrip {l : Str} (h : wsOk l = true) : wsOk (pyStrip l) = true :=
  wsOk_pyStripRight (wsOk_dropWhile pyIsSpace h)

theorem mem_of_mem_pyStrip {l : Str} {x : Char} (h : x ∈ pyStrip l) : x ∈ l :=
  mem_of_mem_dropWhile (mem_of_mem_pyStripRight _ x h)

theorem pyStrip_head_not_space {l : Str} {x : Char}
    (h : (pyStrip l).head? = some x) : pyIsSpace x = false := by
  have h2 := pyStripRight_head? _ x h
  have h3 := List.head?_dropWhile_not pyIsSpace l
  rw [h2] at h3
  simpa using h3

theorem pyStrip_getLast_not_space {l : Str} {x : Char}
    (h : (pyStrip l).getLast? = some x) : pyIsSpace x = false :=
  pyStripRight_getLast_not_space _ x h

theorem pyStrip_idem (l : Str) : pyStrip (pyStrip l) = pyStrip l := by
  have h1 : (pyStrip l).dropWhile pyIsSpace = pyStrip l := by
    cases hh : pyStrip l with
    | nil => rfl
    | cons x xs =>
      have hx : pyIsSpace x = false := pyStrip_head_not_space (by rw [hh]; rfl)
      exact List.dropWhile_cons_of_neg (by simp [hx])
  show pyStripRight ((pyStrip l).dropWhile pyIsSpace) = pyStrip l
  rw [h1]
  show pyStripRight (pyStripRight (l.dropWhile pyIsSpace)) =
    pyStripRight (l.dropWhile pyIsSpace)
  exact pyStripRight_idem _

theorem pyStrip_cons_space (x : Str) : pyStrip (' ' :: x) = pyStrip x := by
  show pyStripRight ((' ' :: x).dropWhile pyIsSpace) = _
  rw [List.dropWhile_cons_of_pos (by decide)]
  rfl

/-! ### joinSep lemmas -/

theorem mem_of_mem_joinSep (sep : Str) :
    ∀ (parts : List Str) (x : Char), x ∈ joinSep sep parts →
      x ∈ sep ∨ ∃ p ∈ parts, x ∈ p := by
  intro parts
  induction parts with
  | nil => intro x hx; simp [joinSep] at hx
  | cons a rest ih =>
    intro x hx
    cases rest with
    | nil =>
      right
      exact ⟨a, List.mem_cons_self _ _, hx⟩
    | cons b rest2 =>
      rw [show joinSep sep (a :: b :: rest2) =
        a ++ sep ++ joinSep sep (b :: rest2) from rfl] at hx
      cases List.mem_append.mp hx with
      | inl h1 =>
        cases List.mem_append.mp h1 with
        | inl ha => exact Or.inr ⟨a, List.mem_cons_self _ _, ha⟩
        | inr hsep => exact Or.inl hsep
      | inr h2 =>
        cases ih x h2 with
        | inl hs => exact Or.inl hs
        | inr hex =>
          obtain ⟨p, hp, hxp⟩ := hex
          exact Or.inr ⟨p, List.mem_cons_of_mem _ hp, hxp⟩

theorem joinSep_head?_of_ne_nil (sep a : Str) (rest : List Str) (ha : a ≠ []) :
    (joinSep sep (a :: rest)).head? = a.head? := by
  cases rest with
  | nil => rfl
  | cons b rest2 =>
    show (a ++ sep ++ joinSep sep (b :: rest2)).head? = a.head?
    rw [List.append_assoc]
    cases a with
    | nil => exact absurd rfl ha
    | cons c a2 => rfl

theorem wsOk_joinSep_dotSpace :
    ∀ segs : List Str,
      (∀ seg ∈ segs, wsOk seg = true ∧ seg ≠ [] ∧
        (∀ x, seg.head? = some x → pyIsSpace x = false) ∧
        (∀ x, seg.getLast? = some x → pyIsSpace x = false)) →
      wsOk (joinSep (str ". ") segs) = true := by
  intro segs
  induction segs with
  | nil => intro _; rfl
  | cons a rest ih =>
    intro hfacts
    cases rest with
    | nil => exact (hfacts a (List.mem_cons_self _ _)).1
    | cons b rest2 =>
      obtain ⟨hwa, hane, hahead, halast⟩ := hfacts a (List.mem_cons_self _ _)
      have hrest := fun seg hs => hfacts seg (List.mem_cons_of_mem _ hs)
      have hm : wsOk (joinSep (str ". ") (b :: rest2)) = true := ih hrest
      obtain ⟨hwb, hbne, hbhead, _⟩ := hrest b (List.mem_cons_self _ _)
      have hmhd : ∀ y, (joinSep (str ". ") (b :: rest2)).head? = some y →
          pyIsSpace y = false := by
        intro y hy
        rw [joinSep_head?_of_ne_nil _ _ _ hbne] at hy
        exact hbhead y hy
      show wsOk (a ++ str ". " ++ joinSep (str ". ") (b :: rest2)) = true
      rw [List.append_assoc]
      refine wsOk_append_intro a _ hwa ?_ ?_
      · show wsOk ('.' :: ' ' :: joinSep (str ". ") (b :: rest2)) = true
        refine wsOk_cons_intro (by decide) ?_ ?_
        · intro e he
          simp only [List.head?_cons, Option.some.injEq] at he
          subst he
          decide
        · refine wsOk_cons_intro (by decide) ?_ hm
          intro e he
          rw [hmhd e he]
          decide
      · intro x hx y hy
        have hy' : y = '.' := by
          have : (str ". " ++ joinSep (str ". ") (b :: rest2)).head? = some '.' := rfl
          rw [this] at hy
          exact (Option.some_inj.mp hy).symm
        subst hy'
        have : pyIsSpace '.' = false := by decide
        rw [this]
        simp

/-! ### Deduplication lemmas -/

theorem dedupAux_cons (line : Str) (rest seen : List Str) :
    dedupAux (line :: rest) seen =
      if lowerStr (pyStrip line) ≠ [] ∧ lowerStr (pyStrip line) ∉ seen then
        pyStrip line :: dedupAux rest (lowerStr (pyStrip line) :: seen)
      else dedupAux rest seen := rfl

theorem lowerStr_ne_nil {l : Str} (h : l ≠ []) : lowerStr l ≠ [] := by
  cases l with
  | nil => exact absurd rfl h
  | cons c rest => simp [lowerStr]

theorem ne_nil_of_lowerStr_ne_nil {l : Str} (h : lowerStr l ≠ []) : l ≠ [] := by
  intro he
  subst he
  exact h rfl

theorem dedupAux_mem :
    ∀ (lines seen : List Str) (x : Str), x ∈ dedupAux lines seen →
      ∃ line ∈ lines, x = pyStrip line ∧ x ≠ [] := by
  intro lines
  induction lines with
  | nil => intro seen x hx; simp [dedupAux] at hx
  | cons line rest ih =>
    intro seen x hx
    rw [dedupAux_cons] at hx
    by_cases hcond : lowerStr (pyStrip line) ≠ [] ∧ lowerStr (pyStrip line) ∉ seen
    · rw [if_pos hcond] at hx
      cases hx with
      | head =>
        exact ⟨line, List.mem_cons_self _ _, rfl,
          ne_nil_of_lowerStr_ne_nil hcond.1⟩
      | tail _ hmem =>
        obtain ⟨line2, hl2, hs2, hn2⟩ := ih _ x hmem
        exact ⟨line2, List.mem_cons_of_mem _ hl2, hs2, hn2⟩
    · rw [if_neg hcond] at hx
      obtain ⟨line2, hl2, hs2, hn2⟩ := ih _ x hx
      exact ⟨line2, List.mem_cons_of_mem _ hl2, hs2, hn2⟩

theorem dedupAux_norms :
    ∀ (lines seen : List Str),
      ((dedupAux lines seen).map (fun x => lowerStr (pyStrip x))).Nodup ∧
      (∀ x ∈ dedupAux lines seen, lowerStr (pyStrip x) ∉ seen) := by
  intro lines
  induction lines with
  | nil =>
    intro seen
    constructor
    · simp [dedupAux]
    · intro x hx; simp [dedupAux] at hx
  | cons line rest ih =>
    intro seen
    rw [dedupAux_cons]
    by_cases hcond : lowerStr (pyStrip line) ≠ [] ∧ lowerStr (pyStrip line) ∉ seen
    · rw [if_pos hcond]
      obtain ⟨ihnodup, ihseen⟩ := ih (lowerStr (pyStrip line) :: seen)
      constructor
      · rw [List.map_cons, List.nodup_cons]
        refine ⟨?_, ihnodup⟩
        intro hmem
        obtain ⟨x, hx, hfx⟩ := List.mem_map.mp hmem
        have hthis := ihseen x hx
        rw [pyStrip_idem] at hfx
        rw [hfx] at hthis
        exact hthis (List.mem_cons_self _ _)
      · intro x hx
        cases hx with
        | head =>
          rw [pyStrip_idem]
          exact hcond.2
        | tail _ hmem =>
          intro hmemseen
          exact ihseen x hmem (List.mem_cons_of_mem _ hmemseen)
    · rw [if_neg hcond]
      exact ih seen

theorem dedupAux_of_forall2 :
    ∀ (lines segs : List Str),
      List.Forall₂ (fun line seg => pyStrip line = seg ∧ seg ≠ []) lines segs →
      ∀ seen : List Str, (segs.map (fun x => lowerStr x)).Nodup →
        (∀ x ∈ segs, lowerStr x ∉ seen) →
        dedupAux lines seen = segs := by
  intro lines segs hf
  induction hf with
  | nil => intro seen _ _; rfl
  | @cons line seg lines2 segs2 hpair hrest ih =>
    intro seen hnodup hseen
    obtain ⟨hstrip, hne⟩ := hpair
    have hnorm_ne : lowerStr (pyStrip line) ≠ [] := by
      rw [hstrip]
      exact lowerStr_ne_nil hne
    have hnorm_notin : lowerStr (pyStrip line) ∉ seen := by
      rw [hstrip]
      exact hseen seg (List.mem_cons_self _ _)
    rw [dedupAux_cons, if_pos ⟨hnorm_ne, hnorm_notin⟩, hstrip]
    congr 1
    rw [List.map_cons, List.nodup_cons] at hnodup
    refine ih (lowerStr seg :: seen) hnodup.2 ?_
    intro x hx hmem
    cases List.mem_cons.mp hmem with
    | inl heq =>
      exact hnodup.1 (List.mem_map.mpr ⟨x, hx, heq⟩)
    | inr hmem2 =>
      exact hseen x (List.mem_cons_of_mem _ hx) hmem2

theorem forall2_strip_spaced :
    ∀ segs : List Str, (∀ x ∈ segs, pyStrip x = x ∧ x ≠ []) →
      List.Forall₂ (fun line seg => pyStrip line = seg ∧ seg ≠ [])
        (segs.map (fun seg => ' ' :: seg)) segs := by
  intro segs
  induction segs with
  | nil => intro _; exact List.Forall₂.nil
  | cons a rest ih =>
    intro h
    obtain ⟨ha, hane⟩ := h a (List.mem_cons_self _ _)
    refine List.Forall₂.cons ⟨?_, hane⟩
      (ih fun x hx => h x (List.mem_cons_of_mem _ hx))
    rw [pyStrip_cons_space, ha]

/-! ### Segment decomposition and the amended idempotence theorem -/

theorem splitOnDot_head_prefix :
    ∀ (l s : Str) (ss : List Str), splitOnDot l = s :: ss → ∃ b, l = s ++ b := by
  intro l
  induction l with
  | nil =>
    intro s ss h
    simp only [splitOnDot] at h
    injection h with h1 _
    exact ⟨[], by rw [← h1]; rfl⟩
  | cons c rest ih =>
    intro s ss h
    by_cases hc : c = '.'
    · simp only [splitOnDot, hc, if_pos] at h
      injection h with h1 _
      exact ⟨c :: rest, by rw [← h1]; rfl⟩
    · obtain ⟨s2, ss2, hsplit, hstep⟩ := splitOnDot_cons_ne c rest hc
      rw [hstep] at h
      injection h with h1 h2
      obtain ⟨b, hb⟩ := ih s2 ss2 hsplit
      exact ⟨b, by rw [← h1, hb]; rfl⟩

theorem splitOnDot_segment_decomp :
    ∀ (l seg : Str), seg ∈ splitOnDot l → ∃ a b, l = a ++ seg ++ b := by
  intro l
  induction l with
  | nil =>
    intro seg hseg
    simp [splitOnDot] at hseg
    subst hseg
    exact ⟨[], [], rfl⟩
  | cons c rest ih =>
    intro seg hseg
    by_cases hc : c = '.'
    · simp only [splitOnDot, hc, if_pos] at hseg
      cases hseg with
      | head => exact ⟨[], c :: rest, rfl⟩
      | tail _ hmem =>
        obtain ⟨a, b, hab⟩ := ih seg hmem
        exact ⟨c :: a, b, by rw [hab]; rfl⟩
    · obtain ⟨s2, ss, hsplit, hstep⟩ := splitOnDot_cons_ne c rest hc
      rw [hstep] at hseg
      cases hseg with
      | head =>
        obtain ⟨b, hb⟩ := splitOnDot_head_prefix rest s2 ss hsplit
        exact ⟨[], b, by rw [hb]; rfl⟩
      | tail _ hmem =>
        obtain ⟨a, b, hab⟩ := ih seg (by rw [hsplit]; exact List.mem_cons_of_mem _ hmem)
        exact ⟨c :: a, b, by rw [hab]; rfl⟩

theorem wsOk_segment {l seg : Str} (hw : wsOk l = true)
    (h : seg ∈ splitOnDot l) : wsOk seg = true := by
  obtain ⟨a, b, hab⟩ := splitOnDot_segment_decomp l seg h
  rw [hab, List.append_assoc] at hw
  exact wsOk_append_left _ _ (wsOk_append_right a _ hw)

theorem clean_text_eq_of_noop (s : Str) (hs : s ≠ [])
    (h1 : ∀ c ∈ s, allowedChar c = true) (h2 : wsOk s = true)
    (h3 : ':' ∉ s) (h4 : '%' ∉ s) :
    clean_text s = joinSep (str ". ") (dedupLines (splitOnDot s)) := by
  have hcoll : collapseWs s = s := collapseWs_wsOk h2
  have hfilt : s.filter allowedChar = s := List.filter_eq_self.mpr h1
  have hurl : urlSub s = s := urlSub_no_colon h3
  have hperc : percentSub s = s := percentSub_no_percent h4
  simp [clean_text, hs, hcoll, hfilt, hurl, hperc]

/-- C8 amended claim: on inputs made only of allow-listed characters, whose
whitespace is already collapsed (single plain spaces), and containing no
colon (so no URL scheme can arise) and no percent sign, `clean_text` is
idempotent.  The unrestricted claim is false: the character filter can
leave a double space (or a stranded URL scheme) that only the second pass
rewrites. -/
theorem clean_text_idempotent_on_tame (s : Str)
    (h1 : ∀ c ∈ s, allowedChar c = true) (h2 : wsOk s = true)
    (h3 : ':' ∉ s) (h4 : '%' ∉ s) :
    clean_text (clean_text s) = clean_text s := by
  by_cases hs : s = []
  · subst hs; rfl
  · have hpass1 := clean_text_eq_of_noop s hs h1 h2 h3 h4
    have hsegfacts : ∀ x ∈ dedupLines (splitOnDot s),
        pyStrip x = x ∧ x ≠ [] ∧ wsOk x = true ∧ (∀ c ∈ x, c ∈ s) ∧
        '.' ∉ x ∧ (∀ c, x.head? = some c → pyIsSpace c = false) ∧
        (∀ c, x.getLast? = some c → pyIsSpace c = false) := by
      intro x hx
      obtain ⟨line, hline, hxeq, hxne⟩ := dedupAux_mem (splitOnDot s) [] x hx
      subst hxeq
      refine ⟨pyStrip_idem line, hxne, wsOk_pyStrip (wsOk_segment h2 hline),
        ?_, ?_, ?_, ?_⟩
      · intro c hc
        exact mem_of_mem_splitOnDot s line hline c (mem_of_mem_pyStrip hc)
      · intro hd
        exact not_dot_mem_splitOnDot s line hline (mem_of_mem_pyStrip hd)
      · intro c hc
        exact pyStrip_head_not_space hc
      · intro c hc
        exact pyStrip_getLast_not_space hc
    have hsepchars : ∀ c : Char, c ∈ str ". " → c = '.' ∨ c = ' ' := by
      intro c hc
      have hd : str ". " = ['.', ' '] := rfl
      rw [hd] at hc
      simpa using hc
    by_cases ht : joinSep (str ". ") (dedupLines (splitOnDot s)) = []
    · rw [hpass1, ht]
      rfl
    · have h1t : ∀ c ∈ joinSep (str ". ") (dedupLines (splitOnDot s)),
          allowedChar c = true := by
        intro c hc
        cases mem_of_mem_joinSep _ _ c hc with
        | inl hsep =>
          cases hsepchars c hsep with
          | inl h => rw [h]; decide
          | inr h => rw [h]; decide
        | inr hseg =>
          obtain ⟨p, hp, hcp⟩ := hseg
          exact h1 c ((hsegfacts p hp).2.2.2.1 c hcp)
      have h3t : ':' ∉ joinSep (str ". ") (dedupLines (splitOnDot s)) := by
        intro hc
        cases mem_of_mem_joinSep _ _ _ hc with
        | inl hsep =>
          cases hsepchars _ hsep with
          | inl h => exact absurd h (by decide)
          | inr h => exact absurd h (by decide)
        | inr hseg =>
          obtain ⟨p, hp, hcp⟩ := hseg
          exact h3 ((hsegfacts p hp).2.2.2.1 _ hcp)
      have h4t : '%' ∉ joinSep (str ". ") (dedupLines (splitOnDot s)) := by
        intro hc
        cases mem_of_mem_joinSep _ _ _ hc with
        | inl hsep =>
          cases hsepchars _ hsep with
          | inl h => exact absurd h (by decide)
          | inr h => exact absurd h (by decide)
        | inr hseg =>
          obtain ⟨p, hp, hcp⟩ := hseg
          exact h4 ((hsegfacts p hp).2.2.2.1 _ hcp)
      have h2t : wsOk (joinSep (str ". ") (dedupLines (splitOnDot s))) = true := by
        apply wsOk_joinSep_dotSpace
        intro seg hseg
        obtain ⟨_, hne, hw, _, _, hh, hl⟩ := hsegfacts seg hseg
        exact ⟨hw, hne, hh, hl⟩
      have hpass2 := clean_text_eq_of_noop _ ht h1t h2t h3t h4t
      obtain ⟨a, rest, hshape⟩ :
          ∃ a rest, dedupLines (splitOnDot s) = a :: rest := by
        cases hd : dedupLines (splitOnDot s) with
        | nil => exact absurd (by rw [hd]; rfl) ht
        | cons a rest => exact ⟨a, rest, rfl⟩
      have hdotfree : ∀ seg ∈ dedupLines (splitOnDot s), '.' ∉ seg :=
        fun seg hs2 => (hsegfacts seg hs2).2.2.2.2.1
      have hsplit_t :
          splitOnDot (joinSep (str ". ") (dedupLines (splitOnDot s))) =
            a :: rest.map (fun seg => ' ' :: seg) := by
        rw [hshape]
        apply splitOnDot_joinSep
        · exact hdotfree a (by rw [hshape]; exact List.mem_cons_self _ _)
        · intro seg hs2
          exact hdotfree seg (by rw [hshape]; exact List.mem_cons_of_mem _ hs2)
      have hnodup0 := (dedupAux_norms (splitOnDot s) []).1
      have hmapeq : (dedupLines (splitOnDot s)).map (fun x => lowerStr (pyStrip x)) =
          (dedupLines (splitOnDot s)).map (fun x => lowerStr x) := by
        apply List.map_congr_left
        intro x hx
        rw [(hsegfacts x hx).1]
      have hnodup : ((dedupLines (splitOnDot s)).map (fun x => lowerStr x)).Nodup := by
        rw [← hmapeq]
        exact hnodup0
      rw [hshape, List.map_cons, List.nodup_cons] at hnodup
      have hstripid : ∀ x ∈ rest, pyStrip x = x ∧ x ≠ [] := by
        intro x hx
        have hfact := hsegfacts x (by rw [hshape]; exact List.mem_cons_of_mem _ hx)
        exact ⟨hfact.1, hfact.2.1⟩
      have hafact := hsegfacts a (by rw [hshape]; exact List.mem_cons_self _ _)
      have hdedup_t :
          dedupLines (splitOnDot (joinSep (str ". ") (dedupLines (splitOnDot s)))) =
            a :: rest := by
        rw [hsplit_t]
        show dedupAux (a :: rest.map (fun seg => ' ' :: seg)) [] = a :: rest
        rw [dedupAux_cons]
        rw [if_pos ⟨by rw [hafact.1]; exact lowerStr_ne_nil hafact.2.1, by simp⟩]
        rw [hafact.1]
        congr 1
        apply dedupAux_of_forall2 _ rest (forall2_strip_spaced rest hstripid)
        · exact hnodup.2
        · intro x hx hmem
          have hxa : lowerStr x = lowerStr a := by simpa using hmem
          exact hnodup.1 (List.mem_map.mpr ⟨x, hx, hxa⟩)
      rw [hpass1, hpass2, hdedup_t, hshape]

/-- Concrete run for the amended C8: a tame bank-text sentence cleans to a
fixed point of `clean_text`. -/
theorem clean_text_idempotent_on_tame_witness :
    clean_text (clean_text (str "Home loan details. Apply now")) =
      clean_text (str "Home loan details. Apply now") :=
  clean_text_idempotent_on_tame _ (by decide) (by decide) (by decide) (by decide)

end BankAssist
